import Mathlib

/-!
# Verification of `rollupvalidator/nodeProcessing.go`

A shallow embedding of `packages/arb-validator/rollupvalidator/nodeProcessing.go`
from the arbitrum repository, together with theorems checking the natural-language
specification against it.

External collaborator types (`common.Hash`, `value.Value`, `common.Address`,
EVM log values, the bloom filter) are modelled as type parameters; external
functions (the value hash, `hashing.SoliditySHA3` over two 32-byte words,
`hexutil.Encode`, `evm.ProcessLog`, `FullLog.ToEVMLog`, `types.LogsBloom`)
are modelled as function parameters, so every derived definition is a pure
function of its explicit inputs, exactly as in the source.
-/

namespace NodeProcessing

/-- Link type of a dispute-tree node: `valprotocol.ValidChildType` or any other. -/
inductive LinkType where
  | Valid : LinkType
  | Other : LinkType
deriving DecidableEq, Repr

/-- `protocol.ExecutionAssertion`: ordered messages and raw AVM log values. -/
structure Assertion (Value : Type) where
  OutMsgs : List Value
  Logs : List Value
deriving DecidableEq, Repr

/-- `structures.Node`, restricted to the accessor contract used by
`processNode`: `Hash()`, `Depth()`, `LinkType()`, `AssertionTxHash()`,
`Assertion()`. -/
structure Node (Value Hash : Type) where
  hash : Hash
  depth : Nat
  linkType : LinkType
  assertionTxHash : Hash
  assertion : Assertion Value
deriving DecidableEq, Repr

/-- Modelled from the spec: `LogGroup` / `logsInfo` (defined elsewhere in the
`rollupvalidator` package, not under the sources given): the EVM-shaped logs
emitted by one decoded transaction, tagged with its original position
(`tx_index`, a 0-based index into `raw_logs`) and its derived transaction hash. -/
structure logsInfo (EthLog Hash : Type) where
  Logs : List EthLog
  TxIndex : Nat
  TxHash : Hash
deriving DecidableEq, Repr

/-- The `nodeInfo` struct: the derived record for one dispute-tree vertex. -/
structure nodeInfo (Value Hash EthLog : Type) where
  EVMLogs : List (logsInfo EthLog Hash)
  EVMTransactionHashes : List Hash
  AVMLogs : List Value
  AVMMessages : List Value
  AVMLogsAccHashes : List String
  AVMLogsValHashes : List String
  NodeHash : Hash
  NodeHeight : Nat
  L1TxHash : Hash
deriving DecidableEq, Repr

/-- `newNodeInfo()`: the zero value of the struct (`zeroH` is the zero value
of the external `common.Hash` type). -/
def newNodeInfo (Value EthLog : Type) {Hash : Type} (zeroH : Hash) :
    nodeInfo Value Hash EthLog :=
  ⟨[], [], [], [], [], [], zeroH, 0, zeroH⟩

/-- The result of `evm.ProcessLog` on one raw log value: the decoded execution,
exposing `GetLogs()`, `GetEthMsg().TxHash()`, and whether it is the
`evm.Revert` variant (whose payload is diagnostic-only). -/
structure EVMVal (EthLog Hash : Type) where
  logs : List EthLog
  txHash : Hash
  isRevert : Bool
deriving DecidableEq, Repr

section Derive

variable {Value Hash EthLog Addr : Type}

/-- `processNode(node, chain)`: derive the `nodeInfo` record for one node.

Parameters standing for external collaborators:
* `zeroH` — the zero `common.Hash`;
* `valueHash` — `value.Value.Hash()`;
* `H` — `hashing.SoliditySHA3(Bytes32 a, Bytes32 b)`;
* `hexEncode` — `hexutil.Encode` of a 32-byte hash;
* `processLog` — `evm.ProcessLog(logVal, chain)`, `none` on error. -/
def processNode (zeroH : Hash) (valueHash : Value → Hash)
    (H : Hash → Hash → Hash) (hexEncode : Hash → String)
    (processLog : Value → Addr → Option (EVMVal EthLog Hash))
    (node : Node Value Hash) (chain : Addr) : nodeInfo Value Hash EthLog :=
  let ni0 : nodeInfo Value Hash EthLog :=
    { newNodeInfo Value EthLog zeroH with
      NodeHash := node.hash
      NodeHeight := node.depth
      L1TxHash := node.assertionTxHash }
  if node.linkType ≠ LinkType.Valid then ni0
  else
    let logs := node.assertion.Logs
    let hashSt := logs.foldl
      (fun (st : List String × List String × Hash) logsVal =>
        let logsValHash := valueHash logsVal
        let acc := H st.2.2 logsValHash
        (st.1 ++ [hexEncode logsValHash], st.2.1 ++ [hexEncode acc], acc))
      ([], [], zeroH)
    let evmSt := logs.enum.foldl
      (fun (st : List (logsInfo EthLog Hash) × List Hash) (p : Nat × Value) =>
        match processLog p.2 chain with
        | none => st
        | some evmVal =>
          (st.1 ++ [⟨evmVal.logs, p.1, evmVal.txHash⟩], st.2 ++ [evmVal.txHash]))
      ([], [])
    { ni0 with
      AVMMessages := node.assertion.OutMsgs
      AVMLogs := logs
      AVMLogsValHashes := hashSt.1
      AVMLogsAccHashes := hashSt.2.1
      EVMLogs := evmSt.1
      EVMTransactionHashes := evmSt.2 }

end Derive

/-- Modelled from the spec: `evm.Log` (package `arb-validator-core/evm`, not
under the sources given): an EVM-shaped log with an emitting address and an
ordered topic list. -/
structure EVMLog (Addr Hash : Type) where
  address : Addr
  topics : List Hash
deriving DecidableEq, Repr

/-- Modelled from the spec: `evm.Log.MatchesQuery(addresses, topics)` (package
`arb-validator-core/evm`, not under the sources given). A log matches if its
address is in `addresses` (empty `addresses` matches all) and, for each
position k in `topics`, the log's k-th topic is in `topics[k]` (an empty set
at position k matches any topic, and logs with fewer topics than `topics`
positions do not match positions beyond their topic count). -/
def MatchesQuery {Addr Hash : Type} [DecidableEq Addr] [DecidableEq Hash]
    (lg : EVMLog Addr Hash) (addresses : List Addr)
    (topics : List (List Hash)) : Bool :=
  (addresses.isEmpty || addresses.contains lg.address) &&
  decide (topics.length ≤ lg.topics.length) &&
  topics.enum.all fun p =>
    p.2.isEmpty ||
      match lg.topics[p.1]? with
      | some t => p.2.contains t
      | none => false

/-- Modelled from the spec: `logResponse` (defined elsewhere in the
`rollupvalidator` package, not under the sources given): one matched log plus
the `tx_index` / `tx_hash` of the group it came from. -/
structure logResponse (Addr Hash : Type) where
  Log : EVMLog Addr Hash
  TxIndex : Nat
  TxHash : Hash
deriving DecidableEq, Repr

section Queries

variable {Value Hash EthLog Addr L Bloom : Type}

/-- `nodeInfo.FindLogs(addresses, topics)`: scan the EVM log groups in order,
within each group scan its logs in order, and collect every log matching the
query together with its group's `TxIndex` and `TxHash`. -/
def FindLogs [DecidableEq Addr] [DecidableEq Hash]
    (ni : nodeInfo Value Hash (EVMLog Addr Hash))
    (addresses : List Addr) (topics : List (List Hash)) :
    List (logResponse Addr Hash) :=
  ni.EVMLogs.foldl
    (fun logs txLogs =>
      txLogs.Logs.foldl
        (fun logs evmLog =>
          if MatchesQuery evmLog addresses topics then
            logs ++ [⟨evmLog, txLogs.TxIndex, txLogs.TxHash⟩]
          else logs)
        logs)
    []

/-- `evm.FullLog` (package `arb-validator-core/evm`, not under the sources
given): a decoded log together with the provenance fields set by
`calculateBloomFilter`. -/
structure FullLog (EthLog Hash : Type) where
  log : EthLog
  txIndex : Nat
  txHash : Hash
  nodeHeight : Nat
  nodeHash : Hash
deriving DecidableEq, Repr

/-- `nodeInfo.calculateBloomFilter()`.

Parameters standing for external collaborators:
* `toEVMLog` — `evm.FullLog.ToEVMLog()`, producing a `types.Log`;
* `setIndex` — the assignment `l.Index = logIndex` on the produced log;
* `logsBloom` — `types.BytesToBloom(types.LogsBloom(ethLogs).Bytes())`. -/
def calculateBloomFilter (ni : nodeInfo Value Hash EthLog)
    (toEVMLog : FullLog EthLog Hash → L) (setIndex : L → Nat → L)
    (logsBloom : List L → Bloom) : Bloom :=
  let st := ni.EVMLogs.enum.foldl
    (fun (st : List L × Nat) (p : Nat × logsInfo EthLog Hash) =>
      p.2.Logs.foldl
        (fun (st : List L × Nat) ethLog =>
          (st.1 ++
            [setIndex (toEVMLog ⟨ethLog, p.1, p.2.TxHash, ni.NodeHeight, ni.NodeHash⟩)
              st.2],
            st.2 + 1))
        st)
    ([], 0)
  logsBloom st.1

end Queries

section Equality

variable {Value Hash EthLog : Type}

/-- `valueSlicesEqual(a, b)`: element-wise equality of two `value.Value`
slices; `value.Eq` is modelled as decidable equality of the `Value` type. -/
def valueSlicesEqual [DecidableEq Value] (a b : List Value) : Bool :=
  if a.length ≠ b.length then false
  else (a.zip b).all fun p => p.1 = p.2

/-- `stringSlicesEqual(a, b)`: element-wise equality of two string slices. -/
def stringSlicesEqual (a b : List String) : Bool :=
  if a.length ≠ b.length then false
  else (a.zip b).all fun p => p.1 = p.2

/-- Modelled from the spec: `logsInfo.Equals` (defined elsewhere in the
`rollupvalidator` package, not under the sources given): structural equality —
same `tx_index`, `tx_hash`, and element-wise-equal log list. -/
def logsInfoEquals [DecidableEq EthLog] [DecidableEq Hash]
    (a b : logsInfo EthLog Hash) : Bool :=
  decide (a.TxIndex = b.TxIndex) && decide (a.TxHash = b.TxHash) &&
    decide (a.Logs = b.Logs)

/-- `logSlicesEqual(a, b)`: element-wise `logsInfo.Equals` on two slices. -/
def logSlicesEqual [DecidableEq EthLog] [DecidableEq Hash]
    (a b : List (logsInfo EthLog Hash)) : Bool :=
  if a.length ≠ b.length then false
  else (a.zip b).all fun p => logsInfoEquals p.1 p.2

/-- `hashSlicesEqual(a, b)`: element-wise equality of two hash slices. -/
def hashSlicesEqual [DecidableEq Hash] (a b : List Hash) : Bool :=
  if a.length ≠ b.length then false
  else (a.zip b).all fun p => p.1 = p.2

/-- `nodeInfo.Equals(o)`: the equivalence check over derived records. -/
def Equals [DecidableEq Value] [DecidableEq Hash] [DecidableEq EthLog]
    (ni o : nodeInfo Value Hash EthLog) : Bool :=
  logSlicesEqual ni.EVMLogs o.EVMLogs &&
  hashSlicesEqual ni.EVMTransactionHashes o.EVMTransactionHashes &&
  valueSlicesEqual ni.AVMLogs o.AVMLogs &&
  valueSlicesEqual ni.AVMMessages o.AVMMessages &&
  stringSlicesEqual ni.AVMLogsAccHashes o.AVMLogsAccHashes &&
  stringSlicesEqual ni.AVMLogsValHashes o.AVMLogsValHashes &&
  decide (ni.NodeHash = o.NodeHash) &&
  decide (ni.NodeHeight = o.NodeHeight)

end Equality

/-- `evm.TxInfo` (package `arb-validator-core/evm`), restricted to the fields
populated by `getTxInfo`. -/
structure TxInfo (Value Hash : Type) where
  Found : Bool
  NodeHeight : Nat
  NodeHash : Hash
  TransactionHash : Hash
  TransactionIndex : Nat
  RawVal : Value
  LogsPreHash : String
  LogsPostHash : String
  LogsValHashes : List String
  OnChainTxHash : Hash
deriving DecidableEq, Repr

section TxView

variable {Value Hash EthLog : Type}

/-- `getTxInfo(txHash, nodeInfo, txIndex)`. Go slice indexing and slicing
panic when out of range; those panics are modelled as `none`. -/
def getTxInfo (zeroH : Hash) (hexEncode : Hash → String) (txHash : Hash)
    (ni : nodeInfo Value Hash EthLog) (txIndex : Nat) :
    Option (TxInfo Value Hash) := do
  let logsPostHash :=
    match ni.AVMLogsAccHashes.getLast? with
    | some h => h
    | none => hexEncode zeroH
  let logsPreHash ←
    if txIndex > 0 then ni.AVMLogsAccHashes[txIndex - 1]?
    else pure (hexEncode zeroH)
  if txIndex + 1 ≤ ni.AVMLogsValHashes.length then
    let logsValHashes := ni.AVMLogsValHashes.drop (txIndex + 1)
    let rawVal ← ni.AVMLogs[txIndex]?
    pure
      { Found := true
        NodeHeight := ni.NodeHeight
        NodeHash := ni.NodeHash
        TransactionHash := txHash
        TransactionIndex := txIndex
        RawVal := rawVal
        LogsPreHash := logsPreHash
        LogsPostHash := logsPostHash
        LogsValHashes := logsValHashes
        OnChainTxHash := ni.L1TxHash }
  else none

end TxView

/-! ## Specification-side definitions -/

/-- The list of running accumulator values produced by folding `H` over the
value hashes of `logs`, starting from accumulator `a`. -/
def accList {Value Hash : Type} (H : Hash → Hash → Hash)
    (valueHash : Value → Hash) : Hash → List Value → List Hash
  | _, [] => []
  | a, v :: t => H a (valueHash v) :: accList H valueHash (H a (valueHash v)) t

/-- The list of provenance-tagged logs that `calculateBloomFilter` feeds to
the bloom-filter primitive: the decoded logs of all groups flattened in
group order, each tagged with its group's *position* in `EVMLogs` as
`txIndex`, its group's `TxHash`, and the node's height and hash, then given
the strictly increasing global index 0, 1, 2, … by enumeration. -/
def bloomLogsSpec {Value Hash EthLog L : Type} (ni : nodeInfo Value Hash EthLog)
    (toEVMLog : FullLog EthLog Hash → L) (setIndex : L → Nat → L) : List L :=
  ((ni.EVMLogs.enum.flatMap fun p =>
      p.2.Logs.map fun lg =>
        (⟨lg, p.1, p.2.TxHash, ni.NodeHeight, ni.NodeHash⟩ :
          FullLog EthLog Hash)).enum).map
    fun q => setIndex (toEVMLog q.2) q.1

/-- The tagged-log list asserted by the claim: identical to `bloomLogsSpec`
except that each log is tagged with its group's recorded `TxIndex` field
instead of the group's position. -/
def bloomLogsClaim {Value Hash EthLog L : Type} (ni : nodeInfo Value Hash EthLog)
    (toEVMLog : FullLog EthLog Hash → L) (setIndex : L → Nat → L) : List L :=
  ((ni.EVMLogs.flatMap fun gr =>
      gr.Logs.map fun lg =>
        (⟨lg, gr.TxIndex, gr.TxHash, ni.NodeHeight, ni.NodeHash⟩ :
          FullLog EthLog Hash)).enum).map
    fun q => setIndex (toEVMLog q.2) q.1

/-! ## Helper lemmas -/

section HashPass

variable {Value Hash : Type}

theorem accList_length (H : Hash → Hash → Hash) (valueHash : Value → Hash) :
    ∀ (a : Hash) (logs : List Value),
      (accList H valueHash a logs).length = logs.length
  | _, [] => rfl
  | _, _ :: t => congrArg Nat.succ (accList_length H valueHash _ t)

theorem accList_getElem? (H : Hash → Hash → Hash) (valueHash : Value → Hash) :
    ∀ (logs : List Value) (a : Hash) (i : Nat),
      (accList H valueHash a logs)[i]? =
        (logs[i]?).map fun v =>
          H ((logs.take i).foldl (fun x w => H x (valueHash w)) a) (valueHash v) := by
  intro logs
  induction logs with
  | nil => intro a i; simp [accList]
  | cons v t ih =>
    intro a i
    cases i with
    | zero => simp [accList]
    | succ i => simpa [accList] using ih (H a (valueHash v)) i

theorem accList_take_foldl (H : Hash → Hash → Hash) (valueHash : Value → Hash) :
    ∀ (logs : List Value) (a : Hash) (i : Nat),
      (accList H valueHash a logs)[i]? =
        (logs[i]?).map fun _ =>
          (logs.take (i + 1)).foldl (fun x w => H x (valueHash w)) a := by
  intro logs
  induction logs with
  | nil => intro a i; simp [accList]
  | cons v t ih =>
    intro a i
    cases i with
    | zero => simp [accList]
    | succ i => simpa [accList] using ih (H a (valueHash v)) i

/-- Characterisation of the first (hashing) pass of `processNode`. -/
theorem hashPass_foldl (H : Hash → Hash → Hash) (valueHash : Value → Hash)
    (hexEncode : Hash → String) :
    ∀ (logs : List Value) (vs as : List String) (a : Hash),
      logs.foldl
        (fun (st : List String × List String × Hash) logsVal =>
          (st.1 ++ [hexEncode (valueHash logsVal)],
           st.2.1 ++ [hexEncode (H st.2.2 (valueHash logsVal))],
           H st.2.2 (valueHash logsVal)))
        (vs, as, a) =
      (vs ++ logs.map fun v => hexEncode (valueHash v),
       as ++ (accList H valueHash a logs).map hexEncode,
       logs.foldl (fun x v => H x (valueHash v)) a) := by
  intro logs
  induction logs with
  | nil => intro vs as a; simp [accList]
  | cons v t ih =>
    intro vs as a
    simp only [List.foldl_cons, ih, accList, List.map_cons]
    simp

end HashPass

section EVMPass

variable {Value Hash EthLog Addr : Type}

/-- Characterisation of the second (decoding) pass of `processNode`. -/
theorem evmPass_foldl (processLog : Value → Addr → Option (EVMVal EthLog Hash))
    (chain : Addr) :
    ∀ (ps : List (Nat × Value)) (gs : List (logsInfo EthLog Hash)) (hs : List Hash),
      ps.foldl
        (fun (st : List (logsInfo EthLog Hash) × List Hash) (p : Nat × Value) =>
          match processLog p.2 chain with
          | none => st
          | some evmVal =>
            (st.1 ++ [⟨evmVal.logs, p.1, evmVal.txHash⟩], st.2 ++ [evmVal.txHash]))
        (gs, hs) =
      (gs ++ ps.filterMap fun p =>
          (processLog p.2 chain).map fun ev => ⟨ev.logs, p.1, ev.txHash⟩,
       hs ++ ps.filterMap fun p => (processLog p.2 chain).map EVMVal.txHash) := by
  intro ps
  induction ps with
  | nil => intro gs hs; simp
  | cons p t ih =>
    intro gs hs
    cases hp : processLog p.2 chain with
    | none => simp [List.foldl_cons, hp, List.filterMap_cons, ih]
    | some ev => simp [List.foldl_cons, hp, List.filterMap_cons, ih]

end EVMPass

section SublistHelpers

variable {α β : Type}

theorem filterMap_sublist_map (f : α → Option β) (g : α → β)
    (hfg : ∀ a b, f a = some b → b = g a) :
    ∀ l : List α, List.Sublist (l.filterMap f) (l.map g) := by
  intro l
  induction l with
  | nil => simp
  | cons a t ih =>
    cases hfa : f a with
    | none =>
      rw [List.map_cons, List.filterMap_cons_none hfa]
      exact ih.cons (g a)
    | some b =>
      rw [List.map_cons, List.filterMap_cons_some hfa, hfg a b hfa]
      exact ih.cons₂ (g a)

theorem mem_enum_getElem? {l : List α} {p : Nat × α} (hp : p ∈ l.enum) :
    l[p.1]? = some p.2 := by
  rw [List.mem_iff_getElem?] at hp
  obtain ⟨i, hi⟩ := hp
  rw [List.getElem?_enum] at hi
  rw [Option.map_eq_some'] at hi
  obtain ⟨v, hv, hpv⟩ := hi
  rw [← hpv]
  exact hv

end SublistHelpers

/-! ## Claims -/

section Claims

variable {Value Hash EthLog Addr : Type}

/-- C8: for every node whose link type is not `Valid`, `processNode` returns a
`nodeInfo` in which every log and message field is empty, while `NodeHash`,
`NodeHeight` and `L1TxHash` equal the source node's hash, depth and assertion
transaction hash. -/
theorem processNode_not_valid (zeroH : Hash) (valueHash : Value → Hash)
    (H : Hash → Hash → Hash) (hexEncode : Hash → String)
    (processLog : Value → Addr → Option (EVMVal EthLog Hash))
    (node : Node Value Hash) (chain : Addr)
    (hother : node.linkType ≠ LinkType.Valid) :
    processNode zeroH valueHash H hexEncode processLog node chain =
      { EVMLogs := []
        EVMTransactionHashes := []
        AVMLogs := []
        AVMMessages := []
        AVMLogsAccHashes := []
        AVMLogsValHashes := []
        NodeHash := node.hash
        NodeHeight := node.depth
        L1TxHash := node.assertionTxHash } := by
  simp [processNode, newNodeInfo, hother]

/-- Witness for `processNode_not_valid` at a concrete node. -/
theorem processNode_not_valid_witness :
    (@Node.mk Nat Nat 5 7 LinkType.Other 11
        ⟨[1, 2], [3]⟩).linkType ≠ LinkType.Valid ∧
    @processNode Nat Nat Nat Nat 0 id (fun a b => a + b)
        (fun h => toString h) (fun _ _ => none)
        (Node.mk 5 7 LinkType.Other 11 ⟨[1, 2], [3]⟩) 0 =
      { EVMLogs := []
        EVMTransactionHashes := []
        AVMLogs := []
        AVMMessages := []
        AVMLogsAccHashes := []
        AVMLogsValHashes := []
        NodeHash := 5
        NodeHeight := 7
        L1TxHash := 11 } :=
  ⟨by decide,
   processNode_not_valid 0 id (fun a b => a + b) (fun h => toString h)
     (fun _ _ => none) (Node.mk 5 7 LinkType.Other 11 ⟨[1, 2], [3]⟩) 0
     (by decide)⟩

/-- C1: for every node whose link type is `Valid`, the derived record has
`AVMLogsValHashes`, `AVMLogsAccHashes` and `AVMLogs` of equal length;
`AVMLogsValHashes[i]` is the hex encoding of the i-th raw log's value hash;
and `AVMLogsAccHashes[i]` is the hex encoding of `H(acc_before_i, valhash_i)`,
where `acc_before_i` is the accumulator folded over the first `i` raw-log
hashes starting from the zero hash (so the accumulator before index 0 is the
zero hash); equivalently `AVMLogsAccHashes[i]` encodes the accumulator folded
over the first `i+1` raw-log hashes, in assertion order. -/
theorem processNode_acc_chain (zeroH : Hash) (valueHash : Value → Hash)
    (H : Hash → Hash → Hash) (hexEncode : Hash → String)
    (processLog : Value → Addr → Option (EVMVal EthLog Hash))
    (node : Node Value Hash) (chain : Addr)
    (hvalid : node.linkType = LinkType.Valid) :
    (processNode zeroH valueHash H hexEncode processLog node chain).AVMLogsValHashes.length =
      (processNode zeroH valueHash H hexEncode processLog node chain).AVMLogs.length ∧
    (processNode zeroH valueHash H hexEncode processLog node chain).AVMLogsAccHashes.length =
      (processNode zeroH valueHash H hexEncode processLog node chain).AVMLogs.length ∧
    (∀ i : Nat,
      (processNode zeroH valueHash H hexEncode processLog node chain).AVMLogsValHashes[i]? =
        ((processNode zeroH valueHash H hexEncode processLog node chain).AVMLogs[i]?).map
          fun v => hexEncode (valueHash v)) ∧
    (∀ i : Nat,
      (processNode zeroH valueHash H hexEncode processLog node chain).AVMLogsAccHashes[i]? =
        ((processNode zeroH valueHash H hexEncode processLog node chain).AVMLogs[i]?).map
          fun v =>
            hexEncode
              (H (((processNode zeroH valueHash H hexEncode processLog node chain).AVMLogs.take i).foldl
                    (fun a w => H a (valueHash w)) zeroH)
                (valueHash v))) ∧
    (∀ i : Nat,
      (processNode zeroH valueHash H hexEncode processLog node chain).AVMLogsAccHashes[i]? =
        ((processNode zeroH valueHash H hexEncode processLog node chain).AVMLogs[i]?).map
          fun _ =>
            hexEncode
              (((processNode zeroH valueHash H hexEncode processLog node chain).AVMLogs.take (i + 1)).foldl
                (fun a w => H a (valueHash w)) zeroH)) := by
  have hval :
      (processNode zeroH valueHash H hexEncode processLog node chain).AVMLogsValHashes =
        node.assertion.Logs.map fun v => hexEncode (valueHash v) := by
    simp [processNode, hvalid, hashPass_foldl]
  have hacc :
      (processNode zeroH valueHash H hexEncode processLog node chain).AVMLogsAccHashes =
        (accList H valueHash zeroH node.assertion.Logs).map hexEncode := by
    simp [processNode, hvalid, hashPass_foldl]
  have hlogs :
      (processNode zeroH valueHash H hexEncode processLog node chain).AVMLogs =
        node.assertion.Logs := by
    simp [processNode, hvalid]
  rw [hval, hacc, hlogs]
  refine ⟨by simp, by simp [accList_length], ?_, ?_, ?_⟩
  · intro i; simp
  · intro i
    simp [accList_getElem? H valueHash node.assertion.Logs zeroH i, Option.map_map,
      Function.comp_def]
  · intro i
    simp [accList_take_foldl H valueHash node.assertion.Logs zeroH i, Option.map_map,
      Function.comp_def]

/-- Witness for `processNode_acc_chain` at a concrete two-log node. -/
theorem processNode_acc_chain_witness :
    (@Node.mk Nat Nat 5 7 LinkType.Valid 11
        ⟨[9], [3, 4]⟩).linkType = LinkType.Valid ∧
    (@processNode Nat Nat Nat Nat 0 (fun v => v + 1)
        (fun a b => 2 * a + 3 * b) (fun h => toString h) (fun _ _ => none)
        (Node.mk 5 7 LinkType.Valid 11 ⟨[9], [3, 4]⟩) 0).AVMLogsAccHashes[1]? =
      (((@processNode Nat Nat Nat Nat 0 (fun v => v + 1)
        (fun a b => 2 * a + 3 * b) (fun h => toString h) (fun _ _ => none)
        (Node.mk 5 7 LinkType.Valid 11 ⟨[9], [3, 4]⟩) 0).AVMLogs[1]?).map
          fun v =>
            toString
              (2 * (((@processNode Nat Nat Nat Nat 0 (fun v => v + 1)
                  (fun a b => 2 * a + 3 * b) (fun h => toString h) (fun _ _ => none)
                  (Node.mk 5 7 LinkType.Valid 11 ⟨[9], [3, 4]⟩) 0).AVMLogs.take 1).foldl
                    (fun a w => 2 * a + 3 * (w + 1)) 0) +
                3 * (v + 1))) :=
  ⟨rfl,
   (processNode_acc_chain 0 (fun v => v + 1) (fun a b => 2 * a + 3 * b)
       (fun h => toString h) (fun _ _ => none)
       (Node.mk 5 7 LinkType.Valid 11 ⟨[9], [3, 4]⟩) 0 rfl).2.2.2.1 1⟩

/-- C3: during derivation over a valid node, every raw log whose decoding
fails contributes nothing, and every raw log whose decoding succeeds
(the `Revert` variant included, since the output does not depend on
`isRevert`) contributes exactly one group carrying its original index and
decoded transaction hash; `EVMTransactionHashes` carries exactly the `TxHash`
of each group, in the same order. `processNode` is total — no error is
returned to the caller. -/
theorem processNode_decode_pass (zeroH : Hash) (valueHash : Value → Hash)
    (H : Hash → Hash → Hash) (hexEncode : Hash → String)
    (processLog : Value → Addr → Option (EVMVal EthLog Hash))
    (node : Node Value Hash) (chain : Addr)
    (hvalid : node.linkType = LinkType.Valid) :
    (processNode zeroH valueHash H hexEncode processLog node chain).EVMLogs =
      node.assertion.Logs.enum.filterMap (fun p =>
        (processLog p.2 chain).map fun ev => ⟨ev.logs, p.1, ev.txHash⟩) ∧
    (processNode zeroH valueHash H hexEncode processLog node chain).EVMTransactionHashes =
      node.assertion.Logs.enum.filterMap (fun p =>
        (processLog p.2 chain).map EVMVal.txHash) ∧
    (processNode zeroH valueHash H hexEncode processLog node chain).EVMTransactionHashes =
      (processNode zeroH valueHash H hexEncode processLog node chain).EVMLogs.map
        logsInfo.TxHash := by
  have h1 :
      (processNode zeroH valueHash H hexEncode processLog node chain).EVMLogs =
        node.assertion.Logs.enum.filterMap (fun p =>
          (processLog p.2 chain).map fun ev => ⟨ev.logs, p.1, ev.txHash⟩) := by
    simp [processNode, hvalid, evmPass_foldl]
  have h2 :
      (processNode zeroH valueHash H hexEncode processLog node chain).EVMTransactionHashes =
        node.assertion.Logs.enum.filterMap (fun p =>
          (processLog p.2 chain).map EVMVal.txHash) := by
    simp [processNode, hvalid, evmPass_foldl]
  refine ⟨h1, h2, ?_⟩
  rw [h1, h2, List.map_filterMap]
  simp [Option.map_map, Function.comp_def]

/-- Witness for `processNode_decode_pass`: three raw logs where decoding of
log 1 fails and log 2 decodes to the revert variant. -/
theorem processNode_decode_pass_witness :
    (@Node.mk Nat Nat 5 7 LinkType.Valid 11
        ⟨[], [3, 4, 5]⟩).linkType = LinkType.Valid ∧
    (@processNode Nat Nat Nat Nat 0 id (fun a b => a + b)
        (fun h => toString h)
        (fun v _ => if v = 4 then none else some ⟨[v], v * 10, v = 5⟩)
        (Node.mk 5 7 LinkType.Valid 11 ⟨[], [3, 4, 5]⟩) 0).EVMLogs =
      ([3, 4, 5] : List Nat).enum.filterMap (fun p =>
        ((fun (v : Nat) (_ : Nat) =>
            if v = 4 then none else some (⟨[v], v * 10, v = 5⟩ : EVMVal Nat Nat)) p.2 0).map
          fun ev => ⟨ev.logs, p.1, ev.txHash⟩) ∧
    (@processNode Nat Nat Nat Nat 0 id (fun a b => a + b)
        (fun h => toString h)
        (fun v _ => if v = 4 then none else some ⟨[v], v * 10, v = 5⟩)
        (Node.mk 5 7 LinkType.Valid 11 ⟨[], [3, 4, 5]⟩) 0).EVMLogs =
      [⟨[3], 0, 30⟩, ⟨[5], 2, 50⟩] := by
  refine ⟨rfl, ?_, by decide⟩
  exact (processNode_decode_pass 0 id (fun a b => a + b) (fun h => toString h)
    (fun v _ => if v = 4 then none else some ⟨[v], v * 10, v = 5⟩)
    (Node.mk 5 7 LinkType.Valid 11 ⟨[], [3, 4, 5]⟩) 0 rfl).1

/-- C10: for every valid node, the `TxIndex` values recorded in the derived
`EVMLogs` are strictly increasing in list order (hence pairwise distinct and
ascending), and each group's `TxIndex` is the original `AVMLogs` index whose
raw log it was decoded from, even when decode failures skip some indices. -/
theorem processNode_tx_indices (zeroH : Hash) (valueHash : Value → Hash)
    (H : Hash → Hash → Hash) (hexEncode : Hash → String)
    (processLog : Value → Addr → Option (EVMVal EthLog Hash))
    (node : Node Value Hash) (chain : Addr)
    (hvalid : node.linkType = LinkType.Valid) :
    ((processNode zeroH valueHash H hexEncode processLog node chain).EVMLogs.map
        logsInfo.TxIndex).Pairwise (· < ·) ∧
    ∀ gr ∈ (processNode zeroH valueHash H hexEncode processLog node chain).EVMLogs,
      ∃ v ev, node.assertion.Logs[gr.TxIndex]? = some v ∧
        processLog v chain = some ev ∧ ev.logs = gr.Logs ∧ ev.txHash = gr.TxHash := by
  have hgroups :
      (processNode zeroH valueHash H hexEncode processLog node chain).EVMLogs =
        node.assertion.Logs.enum.filterMap (fun p =>
          (processLog p.2 chain).map fun ev => ⟨ev.logs, p.1, ev.txHash⟩) := by
    simp [processNode, hvalid, evmPass_foldl]
  constructor
  · rw [hgroups, List.map_filterMap]
    have hsub :
        List.Sublist
          (node.assertion.Logs.enum.filterMap fun p =>
            ((processLog p.2 chain).map fun ev =>
              (⟨ev.logs, p.1, ev.txHash⟩ : logsInfo EthLog Hash)).map
              logsInfo.TxIndex)
          (node.assertion.Logs.enum.map Prod.fst) := by
      apply filterMap_sublist_map
      intro p b hb
      simp only [Option.map_map, Option.map_eq_some'] at hb
      obtain ⟨ev, _, hev⟩ := hb
      exact hev.symm
    refine List.Pairwise.sublist hsub ?_
    rw [List.enum_map_fst]
    exact List.pairwise_lt_range _
  · intro gr hgr
    rw [hgroups, List.mem_filterMap] at hgr
    obtain ⟨p, hpmem, hfp⟩ := hgr
    rw [Option.map_eq_some'] at hfp
    obtain ⟨ev, hev, hgr⟩ := hfp
    refine ⟨p.2, ev, ?_, hev, ?_, ?_⟩
    · rw [← hgr]
      exact mem_enum_getElem? hpmem
    · rw [← hgr]
    · rw [← hgr]

/-- Witness for `processNode_tx_indices`: decoding of log 1 fails, so the
recorded indices are 0 and 2, still strictly increasing. -/
theorem processNode_tx_indices_witness :
    (@Node.mk Nat Nat 5 7 LinkType.Valid 11
        ⟨[], [3, 4, 5]⟩).linkType = LinkType.Valid ∧
    ((@processNode Nat Nat Nat Nat 0 id (fun a b => a + b)
        (fun h => toString h)
        (fun v _ => if v = 4 then none else some ⟨[v], v * 10, false⟩)
        (Node.mk 5 7 LinkType.Valid 11 ⟨[], [3, 4, 5]⟩) 0).EVMLogs.map
        logsInfo.TxIndex).Pairwise (· < ·) :=
  ⟨rfl,
   (processNode_tx_indices 0 id (fun a b => a + b) (fun h => toString h)
     (fun v _ => if v = 4 then none else some ⟨[v], v * 10, false⟩)
     (Node.mk 5 7 LinkType.Valid 11 ⟨[], [3, 4, 5]⟩) 0 rfl).1⟩

/-- Shared characterisation of `getTxInfo` on a record satisfying the §3
length invariant, at an in-range index. -/
theorem getTxInfo_eq_some (zeroH : Hash) (hexEncode : Hash → String)
    (txHash : Hash) (ni : nodeInfo Value Hash EthLog) (txIndex : Nat)
    (hacc : ni.AVMLogsAccHashes.length = ni.AVMLogs.length)
    (hval : ni.AVMLogsValHashes.length = ni.AVMLogs.length)
    (hidx : txIndex < ni.AVMLogs.length) :
    ∃ pre rawVal,
      (txIndex = 0 → pre = hexEncode zeroH) ∧
      (0 < txIndex → ni.AVMLogsAccHashes[txIndex - 1]? = some pre) ∧
      ni.AVMLogs[txIndex]? = some rawVal ∧
      getTxInfo zeroH hexEncode txHash ni txIndex =
        some
          { Found := true
            NodeHeight := ni.NodeHeight
            NodeHash := ni.NodeHash
            TransactionHash := txHash
            TransactionIndex := txIndex
            RawVal := rawVal
            LogsPreHash := pre
            LogsPostHash := (ni.AVMLogsAccHashes.getLast?).getD (hexEncode zeroH)
            LogsValHashes := ni.AVMLogsValHashes.drop (txIndex + 1)
            OnChainTxHash := ni.L1TxHash } := by
  have hvlen : txIndex + 1 ≤ ni.AVMLogsValHashes.length := by omega
  have hraw : ni.AVMLogs[txIndex]? = some (ni.AVMLogs[txIndex]) :=
    List.getElem?_eq_getElem hidx
  rcases Nat.eq_zero_or_pos txIndex with h0 | hpos
  · subst h0
    refine ⟨hexEncode zeroH, ni.AVMLogs[0], fun _ => rfl, fun h => absurd h (by omega),
      hraw, ?_⟩
    simp only [getTxInfo, gt_iff_lt, Nat.lt_irrefl, if_false, hvlen, if_true, hraw]
    cases hlast : ni.AVMLogsAccHashes.getLast? <;> simp [hlast, Option.bind]
  · have hprev : txIndex - 1 < ni.AVMLogsAccHashes.length := by omega
    refine ⟨ni.AVMLogsAccHashes[txIndex - 1], ni.AVMLogs[txIndex],
      fun h => absurd h (by omega), fun _ => List.getElem?_eq_getElem hprev, hraw, ?_⟩
    simp only [getTxInfo, gt_iff_lt, hpos, if_true, List.getElem?_eq_getElem hprev,
      hvlen, hraw]
    cases hlast : ni.AVMLogsAccHashes.getLast? <;> simp [hlast, Option.bind]

/-- C4: for every record satisfying the §3 length invariant and every
in-range `txIndex`, `getTxInfo` succeeds with `LogsPostHash` equal to the
last accumulator hash when the sequence is non-empty and the encoded zero
hash otherwise (independent of `txIndex`), and with `LogsPreHash` equal to
the encoded zero hash when `txIndex = 0` and to `AVMLogsAccHashes[txIndex-1]`
otherwise. -/
theorem getTxInfo_pre_post (zeroH : Hash) (hexEncode : Hash → String)
    (txHash : Hash) (ni : nodeInfo Value Hash EthLog) (txIndex : Nat)
    (hacc : ni.AVMLogsAccHashes.length = ni.AVMLogs.length)
    (hval : ni.AVMLogsValHashes.length = ni.AVMLogs.length)
    (hidx : txIndex < ni.AVMLogs.length) :
    (getTxInfo zeroH hexEncode txHash ni txIndex).map TxInfo.LogsPostHash =
      some ((ni.AVMLogsAccHashes.getLast?).getD (hexEncode zeroH)) ∧
    (txIndex = 0 →
      (getTxInfo zeroH hexEncode txHash ni txIndex).map TxInfo.LogsPreHash =
        some (hexEncode zeroH)) ∧
    (0 < txIndex →
      (getTxInfo zeroH hexEncode txHash ni txIndex).map TxInfo.LogsPreHash =
        ni.AVMLogsAccHashes[txIndex - 1]?) := by
  obtain ⟨pre, rawVal, hpre0, hprepos, _, heq⟩ :=
    getTxInfo_eq_some zeroH hexEncode txHash ni txIndex hacc hval hidx
  refine ⟨by rw [heq]; rfl, fun h0 => ?_, fun hpos => ?_⟩
  · rw [heq]
    simp [hpre0 h0]
  · rw [heq, hprepos hpos]
    rfl

/-- Witness for `getTxInfo_pre_post` at a concrete three-log record. -/
theorem getTxInfo_pre_post_witness :
    (⟨[], [], [10, 11, 12], [], ["a0", "a1", "a2"], ["v0", "v1", "v2"], 1, 2, 3⟩ :
        nodeInfo Nat Nat Nat).AVMLogsAccHashes.length =
      (⟨[], [], [10, 11, 12], [], ["a0", "a1", "a2"], ["v0", "v1", "v2"], 1, 2, 3⟩ :
        nodeInfo Nat Nat Nat).AVMLogs.length ∧
    (2 : Nat) <
      (⟨[], [], [10, 11, 12], [], ["a0", "a1", "a2"], ["v0", "v1", "v2"], 1, 2, 3⟩ :
        nodeInfo Nat Nat Nat).AVMLogs.length ∧
    (0 < 2 →
      (getTxInfo 0 (fun h => toString h) 99
          (⟨[], [], [10, 11, 12], [], ["a0", "a1", "a2"], ["v0", "v1", "v2"], 1, 2, 3⟩ :
            nodeInfo Nat Nat Nat) 2).map TxInfo.LogsPreHash =
        (⟨[], [], [10, 11, 12], [], ["a0", "a1", "a2"], ["v0", "v1", "v2"], 1, 2, 3⟩ :
          nodeInfo Nat Nat Nat).AVMLogsAccHashes[2 - 1]?) :=
  ⟨by decide, by decide,
   (getTxInfo_pre_post 0 (fun h => toString h) 99
     (⟨[], [], [10, 11, 12], [], ["a0", "a1", "a2"], ["v0", "v1", "v2"], 1, 2, 3⟩ :
       nodeInfo Nat Nat Nat) 2 (by decide) (by decide) (by decide)).2.2⟩

/-- C6: for every record satisfying the §3 length invariant and every
in-range `txIndex`, `getTxInfo` succeeds with `LogsValHashes` equal to
`AVMLogsValHashes` from position `txIndex + 1` on; for the last index this is
the empty sequence. -/
theorem getTxInfo_val_suffix (zeroH : Hash) (hexEncode : Hash → String)
    (txHash : Hash) (ni : nodeInfo Value Hash EthLog) (txIndex : Nat)
    (hacc : ni.AVMLogsAccHashes.length = ni.AVMLogs.length)
    (hval : ni.AVMLogsValHashes.length = ni.AVMLogs.length)
    (hidx : txIndex < ni.AVMLogs.length) :
    (getTxInfo zeroH hexEncode txHash ni txIndex).map TxInfo.LogsValHashes =
      some (ni.AVMLogsValHashes.drop (txIndex + 1)) ∧
    (txIndex + 1 = ni.AVMLogsValHashes.length →
      (getTxInfo zeroH hexEncode txHash ni txIndex).map TxInfo.LogsValHashes =
        some []) := by
  obtain ⟨pre, rawVal, _, _, _, heq⟩ :=
    getTxInfo_eq_some zeroH hexEncode txHash ni txIndex hacc hval hidx
  refine ⟨by rw [heq]; rfl, fun hlast => ?_⟩
  rw [heq]
  simp [hlast]

/-- Witness for `getTxInfo_val_suffix` at the last index of a three-log
record: the suffix is empty. -/
theorem getTxInfo_val_suffix_witness :
    (⟨[], [], [10, 11, 12], [], ["a0", "a1", "a2"], ["v0", "v1", "v2"], 1, 2, 3⟩ :
        nodeInfo Nat Nat Nat).AVMLogsValHashes.length =
      (⟨[], [], [10, 11, 12], [], ["a0", "a1", "a2"], ["v0", "v1", "v2"], 1, 2, 3⟩ :
        nodeInfo Nat Nat Nat).AVMLogs.length ∧
    (getTxInfo 0 (fun h => toString h) 99
        (⟨[], [], [10, 11, 12], [], ["a0", "a1", "a2"], ["v0", "v1", "v2"], 1, 2, 3⟩ :
          nodeInfo Nat Nat Nat) 2).map TxInfo.LogsValHashes =
      some ((⟨[], [], [10, 11, 12], [], ["a0", "a1", "a2"], ["v0", "v1", "v2"], 1, 2, 3⟩ :
        nodeInfo Nat Nat Nat).AVMLogsValHashes.drop (2 + 1)) :=
  ⟨by decide,
   (getTxInfo_val_suffix 0 (fun h => toString h) 99
     (⟨[], [], [10, 11, 12], [], ["a0", "a1", "a2"], ["v0", "v1", "v2"], 1, 2, 3⟩ :
       nodeInfo Nat Nat Nat) 2 (by decide) (by decide) (by decide)).1⟩

/-- C5 counterexample: at `txIndex = 0` on a record with three per-log value
hashes, `getTxInfo` returns the suffix starting at index 1, not the suffix
starting at index `txIndex + 2` claimed by the spec sentence. -/
theorem getTxInfo_val_suffix_counterexample :
    ¬ ((getTxInfo 0 (fun h => toString h) 99
          (⟨[], [], [10, 11, 12], [], ["a0", "a1", "a2"], ["v0", "v1", "v2"], 1, 2, 3⟩ :
            nodeInfo Nat Nat Nat) 0).map TxInfo.LogsValHashes =
        some ((⟨[], [], [10, 11, 12], [], ["a0", "a1", "a2"], ["v0", "v1", "v2"], 1, 2, 3⟩ :
          nodeInfo Nat Nat Nat).AVMLogsValHashes.drop (0 + 2))) := by
  decide

/-- C5 amended: `LogsValHashes` is the per-log hash sequence at positions
strictly greater than `txIndex`, i.e. position `txIndex + 1 + k` of
`AVMLogsValHashes` for each `k` (the suffix starting at `txIndex + 1`, not at
`txIndex + 2`). -/
theorem getTxInfo_val_suffix_indexed (zeroH : Hash) (hexEncode : Hash → String)
    (txHash : Hash) (ni : nodeInfo Value Hash EthLog) (txIndex k : Nat)
    (hacc : ni.AVMLogsAccHashes.length = ni.AVMLogs.length)
    (hval : ni.AVMLogsValHashes.length = ni.AVMLogs.length)
    (hidx : txIndex < ni.AVMLogs.length) :
    (getTxInfo zeroH hexEncode txHash ni txIndex).map
        (fun ti => ti.LogsValHashes[k]?) =
      some (ni.AVMLogsValHashes[txIndex + 1 + k]?) := by
  obtain ⟨pre, rawVal, _, _, _, heq⟩ :=
    getTxInfo_eq_some zeroH hexEncode txHash ni txIndex hacc hval hidx
  rw [heq]
  simp [List.getElem?_drop]

/-- Witness for `getTxInfo_val_suffix_indexed`: at `txIndex = 0`, position 0
of the returned suffix is position 1 of `AVMLogsValHashes`. -/
theorem getTxInfo_val_suffix_indexed_witness :
    (0 : Nat) <
      (⟨[], [], [10, 11, 12], [], ["a0", "a1", "a2"], ["v0", "v1", "v2"], 1, 2, 3⟩ :
        nodeInfo Nat Nat Nat).AVMLogs.length ∧
    (getTxInfo 0 (fun h => toString h) 99
        (⟨[], [], [10, 11, 12], [], ["a0", "a1", "a2"], ["v0", "v1", "v2"], 1, 2, 3⟩ :
          nodeInfo Nat Nat Nat) 0).map (fun ti => ti.LogsValHashes[0]?) =
      some ((⟨[], [], [10, 11, 12], [], ["a0", "a1", "a2"], ["v0", "v1", "v2"], 1, 2, 3⟩ :
        nodeInfo Nat Nat Nat).AVMLogsValHashes[0 + 1 + 0]?) :=
  ⟨by decide,
   getTxInfo_val_suffix_indexed 0 (fun h => toString h) 99
     (⟨[], [], [10, 11, 12], [], ["a0", "a1", "a2"], ["v0", "v1", "v2"], 1, 2, 3⟩ :
       nodeInfo Nat Nat Nat) 0 0 (by decide) (by decide) (by decide)⟩

/-- Element-wise comparison of same-length lists decides list equality. -/
theorem zip_all_eq_iff {α : Type} (eqf : α → α → Bool)
    (heqf : ∀ x y, eqf x y = true ↔ x = y) :
    ∀ (a b : List α), a.length = b.length →
      (((a.zip b).all fun p => eqf p.1 p.2) = true ↔ a = b) := by
  intro a
  induction a with
  | nil =>
    intro b hb
    cases b with
    | nil => simp
    | cons y t => simp at hb
  | cons x s ih =>
    intro b hb
    cases b with
    | nil => simp at hb
    | cons y t =>
      simp only [List.length_cons, Nat.succ.injEq] at hb
      simp only [List.zip_cons_cons, List.all_cons, Bool.and_eq_true, heqf, ih t hb,
        List.cons.injEq]

theorem valueSlicesEqual_iff [DecidableEq Value] (a b : List Value) :
    valueSlicesEqual a b = true ↔ a = b := by
  unfold valueSlicesEqual
  by_cases h : a.length = b.length
  · rw [if_neg (by omega)]
    exact zip_all_eq_iff (fun x y => decide (x = y)) (fun x y => by simp) a b h
  · rw [if_pos h]
    constructor
    · intro hf; exact absurd hf (by simp)
    · intro hab; exact absurd (congrArg List.length hab) h

theorem stringSlicesEqual_iff (a b : List String) :
    stringSlicesEqual a b = true ↔ a = b := by
  unfold stringSlicesEqual
  by_cases h : a.length = b.length
  · rw [if_neg (by omega)]
    exact zip_all_eq_iff (fun x y => decide (x = y)) (fun x y => by simp) a b h
  · rw [if_pos h]
    constructor
    · intro hf; exact absurd hf (by simp)
    · intro hab; exact absurd (congrArg List.length hab) h

theorem hashSlicesEqual_iff [DecidableEq Hash] (a b : List Hash) :
    hashSlicesEqual a b = true ↔ a = b := by
  unfold hashSlicesEqual
  by_cases h : a.length = b.length
  · rw [if_neg (by omega)]
    exact zip_all_eq_iff (fun x y => decide (x = y)) (fun x y => by simp) a b h
  · rw [if_pos h]
    constructor
    · intro hf; exact absurd hf (by simp)
    · intro hab; exact absurd (congrArg List.length hab) h

theorem logsInfoEquals_iff [DecidableEq EthLog] [DecidableEq Hash]
    (a b : logsInfo EthLog Hash) : logsInfoEquals a b = true ↔ a = b := by
  cases a; cases b
  simp only [logsInfoEquals, Bool.and_eq_true, decide_eq_true_eq, logsInfo.mk.injEq]
  constructor
  · rintro ⟨⟨h1, h2⟩, h3⟩; exact ⟨h3, h1, h2⟩
  · rintro ⟨h3, h1, h2⟩; exact ⟨⟨h1, h2⟩, h3⟩

theorem logSlicesEqual_iff [DecidableEq EthLog] [DecidableEq Hash]
    (a b : List (logsInfo EthLog Hash)) : logSlicesEqual a b = true ↔ a = b := by
  unfold logSlicesEqual
  by_cases h : a.length = b.length
  · rw [if_neg (by omega)]
    exact zip_all_eq_iff (fun x y => logsInfoEquals x y) logsInfoEquals_iff a b h
  · rw [if_pos h]
    constructor
    · intro hf; exact absurd hf (by simp)
    · intro hab; exact absurd (congrArg List.length hab) h

/-- C2 counterexample: two records identical except for `L1TxHash` are
reported equal by `Equals`, so `Equals` is not equality of every §3 field. -/
theorem Equals_counterexample :
    Equals
        (⟨[], [], [], [], [], [], 0, 0, 1⟩ : nodeInfo Nat Nat Nat)
        (⟨[], [], [], [], [], [], 0, 0, 2⟩ : nodeInfo Nat Nat Nat) = true ∧
      (⟨[], [], [], [], [], [], 0, 0, 1⟩ : nodeInfo Nat Nat Nat).L1TxHash ≠
        (⟨[], [], [], [], [], [], 0, 0, 2⟩ : nodeInfo Nat Nat Nat).L1TxHash := by
  decide

/-- C2 amended: `Equals` returns true iff the two records agree on every §3
field except `l1_tx_hash` — `EVMLogs` (each group compared structurally),
`EVMTransactionHashes`, `AVMLogs`, `AVMMessages`, `AVMLogsAccHashes`,
`AVMLogsValHashes`, `NodeHash` and `NodeHeight` — lists compared element-wise
in order, with length mismatch giving inequality; `L1TxHash` is ignored. -/
theorem Equals_iff_fields [DecidableEq Value] [DecidableEq Hash]
    [DecidableEq EthLog] (a b : nodeInfo Value Hash EthLog) :
    Equals a b = true ↔
      a.EVMLogs = b.EVMLogs ∧
      a.EVMTransactionHashes = b.EVMTransactionHashes ∧
      a.AVMLogs = b.AVMLogs ∧
      a.AVMMessages = b.AVMMessages ∧
      a.AVMLogsAccHashes = b.AVMLogsAccHashes ∧
      a.AVMLogsValHashes = b.AVMLogsValHashes ∧
      a.NodeHash = b.NodeHash ∧
      a.NodeHeight = b.NodeHeight := by
  simp only [Equals, Bool.and_eq_true, decide_eq_true_eq, logSlicesEqual_iff,
    hashSlicesEqual_iff, valueSlicesEqual_iff, stringSlicesEqual_iff]
  tauto

/-- Folding conditional appends equals filtering then mapping. -/
theorem foldl_filter_append {α β : Type} (test : α → Bool) (h : α → β) :
    ∀ (l : List α) (acc : List β),
      l.foldl (fun acc x => if test x then acc ++ [h x] else acc) acc =
        acc ++ (l.filter test).map h := by
  intro l
  induction l with
  | nil => intro acc; simp
  | cons x t ih =>
    intro acc
    cases hx : test x with
    | false => simp [List.foldl_cons, hx, List.filter_cons, ih]
    | true => simp [List.foldl_cons, hx, List.filter_cons, ih]

/-- Characterisation of the nested fold in `FindLogs`. -/
theorem findLogs_foldl {Addr Hash : Type} [DecidableEq Addr] [DecidableEq Hash]
    (addresses : List Addr) (topics : List (List Hash)) :
    ∀ (groups : List (logsInfo (EVMLog Addr Hash) Hash))
      (acc : List (logResponse Addr Hash)),
      groups.foldl
        (fun logs txLogs =>
          txLogs.Logs.foldl
            (fun logs evmLog =>
              if MatchesQuery evmLog addresses topics then
                logs ++ [⟨evmLog, txLogs.TxIndex, txLogs.TxHash⟩]
              else logs)
            logs)
        acc =
      acc ++ groups.flatMap fun gr =>
        (gr.Logs.filter fun lg => MatchesQuery lg addresses topics).map
          fun lg => ⟨lg, gr.TxIndex, gr.TxHash⟩ := by
  intro groups
  induction groups with
  | nil => intro acc; simp
  | cons gr t ih =>
    intro acc
    rw [List.foldl_cons,
      foldl_filter_append (fun lg => MatchesQuery lg addresses topics)
        (fun lg => ⟨lg, gr.TxIndex, gr.TxHash⟩) gr.Logs acc,
      ih, List.flatMap_cons, List.append_assoc]

/-- C9: `FindLogs` returns exactly the logs satisfying `MatchesQuery`, each
paired with the `TxIndex` and `TxHash` of its owning group, in encounter
order (group order, then in-group order), with no deduplication or sorting. -/
theorem FindLogs_spec {Addr Hash Value : Type} [DecidableEq Addr]
    [DecidableEq Hash] (ni : nodeInfo Value Hash (EVMLog Addr Hash))
    (addresses : List Addr) (topics : List (List Hash)) :
    FindLogs ni addresses topics =
      ni.EVMLogs.flatMap fun gr =>
        (gr.Logs.filter fun lg => MatchesQuery lg addresses topics).map
          fun lg => ⟨lg, gr.TxIndex, gr.TxHash⟩ := by
  unfold FindLogs
  rw [findLogs_foldl addresses topics ni.EVMLogs []]
  rfl

/-- Folding indexed appends equals mapping over an enumeration. -/
theorem foldl_enumFrom_append {α L : Type} (h : α → Nat → L) :
    ∀ (logs : List α) (acc : List L) (k : Nat),
      logs.foldl (fun (st : List L × Nat) x => (st.1 ++ [h x st.2], st.2 + 1))
        (acc, k) =
      (acc ++ (logs.enumFrom k).map fun q => h q.2 q.1, k + logs.length) := by
  intro logs
  induction logs with
  | nil => intro acc k; simp
  | cons x t ih =>
    intro acc k
    rw [List.foldl_cons, ih, List.enumFrom_cons]
    simp [Nat.add_comm, Nat.add_assoc, Nat.add_left_comm]

theorem enumFrom_map_map {α β L : Type} (mk : α → β) (h : β → Nat → L) :
    ∀ (l : List α) (k : Nat),
      ((l.map mk).enumFrom k).map (fun q => h q.2 q.1) =
        (l.enumFrom k).map fun q => h (mk q.2) q.1 := by
  intro l
  induction l with
  | nil => intro k; simp
  | cons x t ih => intro k; simp [List.enumFrom_cons, ih]

/-- Characterisation of the nested fold in `calculateBloomFilter`. -/
theorem bloom_foldl {EthLog Hash L : Type} (f : FullLog EthLog Hash → L)
    (g : L → Nat → L) (nht : Nat) (nha : Hash) :
    ∀ (gps : List (Nat × logsInfo EthLog Hash)) (acc : List L) (k : Nat),
      gps.foldl
        (fun (st : List L × Nat) (p : Nat × logsInfo EthLog Hash) =>
          p.2.Logs.foldl
            (fun (st : List L × Nat) ethLog =>
              (st.1 ++ [g (f ⟨ethLog, p.1, p.2.TxHash, nht, nha⟩) st.2],
               st.2 + 1))
            st)
        (acc, k) =
      (acc ++
        (((gps.flatMap fun p =>
            p.2.Logs.map fun lg =>
              (⟨lg, p.1, p.2.TxHash, nht, nha⟩ : FullLog EthLog Hash)).enumFrom
          k).map fun q => g (f q.2) q.1),
       k + (gps.flatMap fun p =>
          p.2.Logs.map fun lg =>
            (⟨lg, p.1, p.2.TxHash, nht, nha⟩ : FullLog EthLog Hash)).length) := by
  intro gps
  induction gps with
  | nil => intro acc k; simp
  | cons p t ih =>
    intro acc k
    rw [List.foldl_cons,
      foldl_enumFrom_append
        (fun ethLog i => g (f ⟨ethLog, p.1, p.2.TxHash, nht, nha⟩) i)
        p.2.Logs acc k,
      ih, List.flatMap_cons, List.enumFrom_append, List.map_append,
      enumFrom_map_map (fun lg => (⟨lg, p.1, p.2.TxHash, nht, nha⟩ :
        FullLog EthLog Hash)) (fun q i => g (f q) i) p.2.Logs k]
    simp [List.append_assoc, Nat.add_assoc, List.length_map]

/-- C7 counterexample: on a record with a single group whose recorded
`TxIndex` is 5, `calculateBloomFilter` tags the group's log with `txIndex`
0 — the group's position in `EVMLogs` — not with the recorded 5 the claim
asserts. -/
theorem calculateBloomFilter_counterexample :
    @calculateBloomFilter Nat Nat Nat (FullLog Nat Nat × Nat) (List (FullLog Nat Nat × Nat))
        (⟨[⟨[7], 5, 3⟩], [], [], [], [], [], 1, 2, 0⟩ : nodeInfo Nat Nat Nat)
        (fun fl => (fl, 0)) (fun x n => (x.1, n)) (fun l => l) ≠
      bloomLogsClaim
        (⟨[⟨[7], 5, 3⟩], [], [], [], [], [], 1, 2, 0⟩ : nodeInfo Nat Nat Nat)
        (fun fl => (fl, 0)) (fun x n => (x.1, n)) := by
  decide

/-- C7 amended: `calculateBloomFilter` applies the bloom-filter primitive to
the decoded logs flattened in `EVMLogs` order, each assigned the single
strictly increasing global log index 0, 1, 2, … (not reset per group) and
tagged with the owning node's hash and height, its group's recorded
`TxHash`, and its group's *position* in `EVMLogs` as `txIndex` (the group's
recorded `TxIndex` field is not used). -/
theorem calculateBloomFilter_spec {Value Hash EthLog L Bloom : Type}
    (ni : nodeInfo Value Hash EthLog) (toEVMLog : FullLog EthLog Hash → L)
    (setIndex : L → Nat → L) (logsBloom : List L → Bloom) :
    calculateBloomFilter ni toEVMLog setIndex logsBloom =
      logsBloom (bloomLogsSpec ni toEVMLog setIndex) := by
  unfold calculateBloomFilter bloomLogsSpec
  rw [List.enum_eq_enumFrom, List.enum_eq_enumFrom,
    bloom_foldl toEVMLog setIndex ni.NodeHeight ni.NodeHash
      (ni.EVMLogs.enumFrom 0) [] 0]
  simp

end Claims

end NodeProcessing
